import Mathlib

/-!
Verification of the pricing engine of the OCR menu extractor.

The definitions below are a shallow embedding of `calculateBestPrice` in
`src/lib/utils.ts` together with the entity types of `src/lib/types.ts`.
JavaScript numbers are modelled as rationals (`ℚ`) for prices and as
integers (`ℤ`) for quantities; `Math.floor(a / b)` on integers is
`Int.fdiv a b` (floor division), which agrees with JavaScript for every
non-zero divisor.  Fields of the source types that the engine never reads
(display name, description, images, saved-menu metadata) are omitted.

Two deliberate modelling notes, both about degenerate rule values that the
surrounding application never constructs:

* a `MIXED_COMBO` rule whose `mixQuantities` is the empty array would, in
  JavaScript, be applied `Infinity` times (the `times` accumulator starts
  at `Infinity` and the `forEach` loop never runs); `Infinity` has no
  rational counterpart, so the embedding treats the empty list as
  inapplicable (`mixTimes?` returns `none`);
* a mixed entry with `quantity = 0` divides by zero in JavaScript
  (producing `Infinity`/`NaN`); `Int.fdiv _ 0 = 0` makes such an entry
  block the combo in the embedding.

Everything else is a direct transcription of the source.
-/

namespace MenuPricing

/-- The closed category set of `src/lib/types.ts` (`MenuCategory`). -/
inductive MenuCategory where
  | FIT
  | LOWCARB
  | CALDOS
  deriving DecidableEq, Fintype

/-- A catalog item; the engine reads only `id` and `category`. -/
structure MenuItem where
  id : String
  category : MenuCategory
  deriving DecidableEq

/-- The discriminator of `PricingRule` (`PricingRuleType`). -/
inductive PricingRuleType where
  | UNITARY
  | QUANTITY_COMBO
  | MIXED_COMBO
  deriving DecidableEq

/-- One entry of a mixed combo's `mixQuantities` array. -/
structure MixEntry where
  category : MenuCategory
  quantity : ℤ
  deriving DecidableEq

/-- A pricing rule, a flat record with optional fields exactly as in
`src/lib/types.ts`: `quantity` is only meaningful for `QUANTITY_COMBO`,
`mixQuantities` only for `MIXED_COMBO`. -/
structure PricingRule where
  id : String
  category : MenuCategory
  type : PricingRuleType
  price : ℚ
  quantity : Option ℤ := none
  mixQuantities : Option (List MixEntry) := none
  deriving DecidableEq

/-- An applied combo: the rule plus the total savings attributed to it
(per-application savings times the number of applications). -/
structure AppliedCombo where
  rule : PricingRule
  savings : ℚ
  deriving DecidableEq

/-- The result record of `calculateBestPrice`. -/
structure PriceResult where
  total : ℚ
  appliedCombos : List AppliedCombo
  breakdown : List String
  deriving DecidableEq

/-- The item map `new Map(items.map(item => [item.id, item]))`: on duplicate
ids the later entry wins, hence a left fold that overwrites. -/
def itemLookup (items : List MenuItem) (itemId : String) : Option MenuItem :=
  items.foldl (fun acc it => if it.id = itemId then some it else acc) none

/-- Aggregation of the selection map into per-category counts
(`categoryCounts` in the source): every resolved entry adds its quantity,
with no sign check; unknown ids are skipped. -/
def categoryCounts (selections : List (String × ℤ)) (items : List MenuItem) :
    MenuCategory → ℤ :=
  selections.foldl
    (fun counts e =>
      match itemLookup items e.1 with
      | some it => fun c => if c = it.category then counts c + e.2 else counts c
      | none => counts)
    (fun _ => 0)

/-- The unit-price lookup (`unitaryPrices` in the source): built from the
`UNITARY` rules in order, later rules overwriting earlier ones; categories
with no unit rule default to 0. -/
def unitaryPrices (rules : List PricingRule) : MenuCategory → ℚ :=
  (rules.filter fun r => r.type = PricingRuleType.UNITARY).foldl
    (fun prices r => fun c => if c = r.category then r.price else prices c)
    (fun _ => 0)

/-- The savings computation of the candidate-building `map` in the source:
what the combo replaces at unit price minus the combo price; 0 when the
shape fields are missing or falsy (`rule.quantity` is falsy for `0`). -/
def comboSavings (prices : MenuCategory → ℚ) (r : PricingRule) : ℚ :=
  if r.type = PricingRuleType.QUANTITY_COMBO then
    match r.quantity with
    | some q => if q ≠ 0 then prices r.category * (q : ℚ) - r.price else 0
    | none => 0
  else if r.type = PricingRuleType.MIXED_COMBO then
    match r.mixQuantities with
    | some ms =>
        (ms.foldl (fun acc m => acc + prices m.category * (m.quantity : ℚ)) 0) - r.price
    | none => 0
  else 0

/-- A combo candidate: the `{ rule, savings }` objects of the source. -/
structure Candidate where
  rule : PricingRule
  savings : ℚ
  deriving DecidableEq

/-- The candidate list: non-unitary rules with their savings, keeping only
strictly positive savings (`.filter((c) => c.savings > 0)`), in input order. -/
def comboCandidates (rules : List PricingRule) : List Candidate :=
  ((rules.filter fun r => r.type ≠ PricingRuleType.UNITARY).map
      fun r => Candidate.mk r (comboSavings (unitaryPrices rules) r)).filter
    fun c => 0 < c.savings

/-- Insertion into a savings-descending sorted list: the new element goes
after every element with savings greater than or equal to its own.  This is
the placement a stable sort with comparator `(a, b) => b.savings - a.savings`
gives to an element arriving after the already-placed ones. -/
def insertDesc (x : Candidate) : List Candidate → List Candidate
  | [] => [x]
  | y :: ys => if y.savings < x.savings then x :: y :: ys else y :: insertDesc x ys

/-- The stable savings-descending sort
(`.sort((a, b) => b.savings - a.savings)`; `Array.prototype.sort` is stable). -/
def sortBySavingsDesc (l : List Candidate) : List Candidate :=
  l.foldl (fun acc x => insertDesc x acc) []

/-- The mutable state of the greedy application loop: the applied combos
(rule, per-application savings, times applied), the remaining per-category
counts, and the running total. -/
structure AppState where
  apps : List (PricingRule × ℚ × ℤ)
  remaining : MenuCategory → ℤ
  total : ℚ

/-- The `times = Math.min(times, available)` accumulation of the mixed-combo
branch, after the first entry replaced the `Infinity` start value. -/
def mixTimesFrom (rem : MenuCategory → ℤ) (t : ℤ) : List MixEntry → ℤ
  | [] => t
  | m :: ms => mixTimesFrom rem (min t (Int.fdiv (rem m.category) m.quantity)) ms

/-- The applicable-times computation of the mixed-combo branch; `none` for an
empty requirement list (see the module comment on the `Infinity` start). -/
def mixTimes? (rem : MenuCategory → ℤ) : List MixEntry → Option ℤ
  | [] => none
  | m :: ms => some (mixTimesFrom rem (Int.fdiv (rem m.category) m.quantity) ms)

/-- Net number of units one application of a mixed combo consumes from a
category: the sum of the quantities of the entries naming that category. -/
def mixConsumption (ms : List MixEntry) (cat : MenuCategory) : ℤ :=
  (ms.map fun m => if m.category = cat then m.quantity else 0).sum

/-- Net number of units one application of a rule consumes from a category,
following the guards of the application loop. -/
def ruleConsumption (r : PricingRule) (cat : MenuCategory) : ℤ :=
  if r.type = PricingRuleType.QUANTITY_COMBO then
    match r.quantity with
    | some q => if q ≠ 0 then (if r.category = cat then q else 0) else 0
    | none => 0
  else if r.type = PricingRuleType.MIXED_COMBO then
    match r.mixQuantities with
    | some ms => mixConsumption ms cat
    | none => 0
  else 0

/-- One iteration of the greedy application loop
(`for (const { rule, savings } of combos)`). -/
def comboStep (st : AppState) (c : Candidate) : AppState :=
  if c.rule.type = PricingRuleType.QUANTITY_COMBO then
    match c.rule.quantity with
    | some q =>
        if q ≠ 0 then
          let available := Int.fdiv (st.remaining c.rule.category) q
          if 0 < available then
            { apps := st.apps ++ [(c.rule, c.savings, available)],
              remaining := fun cat =>
                if cat = c.rule.category then st.remaining cat - q * available
                else st.remaining cat,
              total := st.total + c.rule.price * (available : ℚ) }
          else st
        else st
    | none => st
  else if c.rule.type = PricingRuleType.MIXED_COMBO then
    match c.rule.mixQuantities with
    | some ms =>
        match mixTimes? st.remaining ms with
        | some times =>
            if (ms.all fun m => Int.fdiv (st.remaining m.category) m.quantity ≠ 0)
                ∧ 0 < times then
              { apps := st.apps ++ [(c.rule, c.savings, times)],
                remaining := ms.foldl
                  (fun rem m => fun cat =>
                    if cat = m.category then rem cat - m.quantity * times else rem cat)
                  st.remaining,
                total := st.total + c.rule.price * (times : ℚ) }
            else st
        | none => st
    | none => st
  else st

/-- The whole greedy loop over the ranked candidates. -/
def runCombos (counts : MenuCategory → ℤ) (combos : List Candidate) : AppState :=
  combos.foldl comboStep { apps := [], remaining := counts, total := 0 }

/-- The application state `calculateBestPrice` reaches after the greedy loop. -/
def applyStateOf (selections : List (String × ℤ)) (items : List MenuItem)
    (rules : List PricingRule) : AppState :=
  runCombos (categoryCounts selections items) (sortBySavingsDesc (comboCandidates rules))

/-- The key order of the `remainingCounts` record literal. -/
def allCategories : List MenuCategory :=
  [MenuCategory.FIT, MenuCategory.LOWCARB, MenuCategory.CALDOS]

/-- The remainder pricing loop: categories with a strictly positive remaining
count contribute `unitPrice * count`. -/
def remainderTotal (prices : MenuCategory → ℚ) (rem : MenuCategory → ℤ) : ℚ :=
  allCategories.foldl
    (fun acc c => if 0 < rem c then acc + prices c * ((rem c : ℤ) : ℚ) else acc) 0

/-- The `appliedCombos` output list: each application record carries the rule
and `savings * times` exactly as pushed by the source. -/
def appliedCombosOf (st : AppState) : List AppliedCombo :=
  st.apps.map fun a => AppliedCombo.mk a.1 (a.2.1 * (a.2.2 : ℚ))

/-- Decimal rounding of `Number.prototype.toFixed(2)` applied to an exact
rational: the integer `n` with `n / 100` closest to the magnitude, ties
going to the larger `n`. -/
def rounded2 (q : ℚ) : ℕ :=
  (Int.floor (|q| * 100 + 1 / 2)).toNat

/-- The part of `toFixed(2)` before the decimal point, sign included. -/
def intString (q : ℚ) : String :=
  (if q < 0 then "-" else "") ++ toString (rounded2 q / 100)

/-- The two digits of `toFixed(2)` after the decimal point. -/
def fracString (q : ℚ) : String :=
  String.mk [Nat.digitChar (rounded2 q % 100 / 10), Nat.digitChar (rounded2 q % 10)]

/-- The rendering of `x.toFixed(2)` for an exact rational `x`. -/
def toFixed2 (q : ℚ) : String :=
  intString q ++ "." ++ fracString q

/-- The display name of a category in breakdown lines. -/
def catName : MenuCategory → String
  | MenuCategory.FIT => "FIT"
  | MenuCategory.LOWCARB => "LOWCARB"
  | MenuCategory.CALDOS => "CALDOS"

/-- The string interpolation of `rule.quantity`, which renders a missing
field as `undefined`. -/
def quantityStr : Option ℤ → String
  | some q => toString q
  | none => "undefined"

/-- The composition description of a mixed combo
(`mixQuantities.map(...).join(" + ")`). -/
def mixDesc (ms : List MixEntry) : String :=
  let sep : String := " + "
  String.intercalate sep (ms.map fun m => toString m.quantity ++ "x " ++ catName m.category)

/-- The header line of a non-empty breakdown. -/
def comboHeader : String := "Combos aplicados:"

/-- The line pushed for one applied combo; `none` when the `forEach` body
pushes nothing (a shape that never occurs for actually applied combos). -/
def lineOf (a : AppliedCombo) : Option String :=
  if a.rule.type = PricingRuleType.QUANTITY_COMBO then
    some ("- " ++ quantityStr a.rule.quantity ++ "x " ++ catName a.rule.category
      ++ ": R$ " ++ toFixed2 a.rule.price ++ " (economia: R$ " ++ toFixed2 a.savings ++ ")")
  else if a.rule.type = PricingRuleType.MIXED_COMBO then
    match a.rule.mixQuantities with
    | some ms =>
        some ("- Combo " ++ mixDesc ms ++ ": R$ " ++ toFixed2 a.rule.price
          ++ " (economia: R$ " ++ toFixed2 a.savings ++ ")")
    | none => none
  else none

/-- The pricing engine `calculateBestPrice(selections, items, pricingRules)`.
The selection map is passed as its entry list in key order. -/
def calculateBestPrice (selections : List (String × ℤ)) (items : List MenuItem)
    (rules : List PricingRule) : PriceResult :=
  let st := applyStateOf selections items rules
  let applied := appliedCombosOf st
  { total := st.total + remainderTotal (unitaryPrices rules) st.remaining,
    appliedCombos := applied,
    breakdown := if 0 < applied.length then comboHeader :: applied.filterMap lineOf else [] }

/-- Whether a selection entry id resolves to an item of the given category. -/
def resolvesTo (items : List MenuItem) (itemId : String) (cat : MenuCategory) : Bool :=
  match itemLookup items itemId with
  | some it => it.category = cat
  | none => false

/-- Modelled from the claim's words (C1): the aggregated count a category
would have if only entries with strictly positive quantities contributed. -/
def positiveOnlyCount (selections : List (String × ℤ)) (items : List MenuItem)
    (cat : MenuCategory) : ℤ :=
  ((selections.filter fun e => decide (0 < e.2) && resolvesTo items e.1 cat).map
    fun e => e.2).sum

/-- Units consumed from a category by the recorded applications: for each
application, times applied multiplied by the per-application consumption. -/
def consumedUnits (st : AppState) (cat : MenuCategory) : ℤ :=
  (st.apps.map fun a => a.2.2 * ruleConsumption a.1 cat).sum

/-- One category's contribution to the remainder pricing loop. -/
def remainderTerm (prices : MenuCategory → ℚ) (rem : MenuCategory → ℤ)
    (c : MenuCategory) : ℚ :=
  if 0 < rem c then prices c * ((rem c : ℤ) : ℚ) else 0

/-- The shapes a rule can have at the moment the loop applies it: a
quantity combo, or a mixed combo with a present `mixQuantities` field. -/
def appliedShape (r : PricingRule) : Bool :=
  if r.type = PricingRuleType.QUANTITY_COMBO then true
  else if r.type = PricingRuleType.MIXED_COMBO then r.mixQuantities.isSome
  else false

/-- Number of units one application of a rule consumes over all categories. -/
def unitsPerApplication (r : PricingRule) : ℤ :=
  (allCategories.map fun c => ruleConsumption r c).sum

/-- Default used when extracting a breakdown line that is always present. -/
def emptyLine : String := ""

/-- Example item of category FIT with id a. -/
def exItemA : MenuItem := { id := "a", category := MenuCategory.FIT }

/-- Example item of category FIT with id b. -/
def exItemB : MenuItem := { id := "b", category := MenuCategory.FIT }

/-- Example unit rule: FIT costs 10 per unit. -/
def exUnitFit : PricingRule :=
  { id := "u-fit", category := MenuCategory.FIT, type := PricingRuleType.UNITARY,
    price := 10 }

/-- Example quantity combo: 10 FIT for 95 (savings 5). -/
def exComboX : PricingRule :=
  { id := "x", category := MenuCategory.FIT, type := PricingRuleType.QUANTITY_COMBO,
    price := 95, quantity := some 10 }

/-- Example quantity combo: 5 FIT for 46 (savings 4). -/
def exComboY : PricingRule :=
  { id := "y", category := MenuCategory.FIT, type := PricingRuleType.QUANTITY_COMBO,
    price := 46, quantity := some 5 }

/-- Example quantity combo: 10 FIT for 90 (savings 10, 1 per unit). -/
def exComboA : PricingRule :=
  { id := "A", category := MenuCategory.FIT, type := PricingRuleType.QUANTITY_COMBO,
    price := 90, quantity := some 10 }

/-- Example quantity combo: 2 FIT for 11 (savings 9, 4.5 per unit). -/
def exComboB : PricingRule :=
  { id := "B", category := MenuCategory.FIT, type := PricingRuleType.QUANTITY_COMBO,
    price := 11, quantity := some 2 }

/-- Example quantity combo that is worse than unit price: 2 FIT for 25. -/
def exComboBad : PricingRule :=
  { id := "bad", category := MenuCategory.FIT, type := PricingRuleType.QUANTITY_COMBO,
    price := 25, quantity := some 2 }

/-- Example degenerate quantity combo with a zero quantity field. -/
def exDegen : PricingRule :=
  { id := "d", category := MenuCategory.FIT, type := PricingRuleType.QUANTITY_COMBO,
    price := 5, quantity := some 0 }

/-- Example mixed-combo requirement list: 2 FIT and 3 LOWCARB. -/
def exMs : List MixEntry :=
  [{ category := MenuCategory.FIT, quantity := 2 },
   { category := MenuCategory.LOWCARB, quantity := 3 }]

/-- Example mixed combo over `exMs` for 20. -/
def exMixRule : PricingRule :=
  { id := "m", category := MenuCategory.FIT, type := PricingRuleType.MIXED_COMBO,
    price := 20, mixQuantities := some exMs }

/-- Example candidate wrapping the mixed combo with savings 7. -/
def exCand : Candidate := { rule := exMixRule, savings := 7 }

/-- Example loop state with 5 units remaining in every category. -/
def exSt : AppState := { apps := [], remaining := fun _ => 5, total := 0 }

section SortLemmas

/-- Membership in an insertion. -/
theorem mem_insertDesc {a x : Candidate} :
    ∀ {l : List Candidate}, a ∈ insertDesc x l ↔ a = x ∨ a ∈ l := by
  intro l
  induction l with
  | nil => simp [insertDesc]
  | cons y ys ih =>
      by_cases h : y.savings < x.savings
      · simp [insertDesc, h]
      · simp [insertDesc, h, ih]
        tauto

/-- Insertion preserves the savings-descending pairwise order. -/
theorem pairwise_insertDesc (x : Candidate) :
    ∀ (l : List Candidate),
      l.Pairwise (fun a b => b.savings ≤ a.savings) →
      (insertDesc x l).Pairwise (fun a b => b.savings ≤ a.savings) := by
  intro l
  induction l with
  | nil => simp [insertDesc]
  | cons y ys ih =>
      intro hp
      rw [List.pairwise_cons] at hp
      obtain ⟨hy, hys⟩ := hp
      by_cases h : y.savings < x.savings
      · rw [insertDesc, if_pos h]
        refine List.Pairwise.cons ?_ (List.Pairwise.cons hy hys)
        intro z hz
        rcases List.mem_cons.mp hz with hz | hz
        · exact hz ▸ le_of_lt h
        · exact le_trans (hy z hz) (le_of_lt h)
      · rw [insertDesc, if_neg h]
        refine List.Pairwise.cons ?_ (ih hys)
        intro z hz
        rcases mem_insertDesc.mp hz with hz | hz
        · exact hz ▸ le_of_not_lt h
        · exact hy z hz

/-- The sorting fold preserves the savings-descending pairwise order. -/
theorem foldl_insert_pairwise :
    ∀ (l acc : List Candidate),
      acc.Pairwise (fun a b => b.savings ≤ a.savings) →
      (l.foldl (fun a x => insertDesc x a) acc).Pairwise
        (fun a b => b.savings ≤ a.savings) := by
  intro l
  induction l with
  | nil => intro acc h; exact h
  | cons x xs ih =>
      intro acc h
      exact ih (insertDesc x acc) (pairwise_insertDesc x acc h)

/-- The ranked candidate list is sorted by savings, best first. -/
theorem sortBySavingsDesc_pairwise (l : List Candidate) :
    (sortBySavingsDesc l).Pairwise (fun a b => b.savings ≤ a.savings) :=
  foldl_insert_pairwise l [] (List.Pairwise.nil)

/-- Inserting into a sorted list puts the new element after every element
with the same savings: filtering at any fixed savings value appends it. -/
theorem filter_insertDesc (x : Candidate) (v : ℚ) :
    ∀ (l : List Candidate),
      l.Pairwise (fun a b => b.savings ≤ a.savings) →
      (insertDesc x l).filter (fun c => c.savings = v) =
        l.filter (fun c => c.savings = v) ++ (if x.savings = v then [x] else []) := by
  intro l
  induction l with
  | nil =>
      intro _
      by_cases hxv : x.savings = v <;> simp [insertDesc, List.filter_cons, hxv]
  | cons y ys ih =>
      intro hp
      rw [List.pairwise_cons] at hp
      obtain ⟨hy, hys⟩ := hp
      by_cases h : y.savings < x.savings
      · rw [insertDesc, if_pos h]
        by_cases hxv : x.savings = v
        · have hnil : (y :: ys).filter (fun c => c.savings = v) = [] := by
            rw [List.filter_eq_nil_iff]
            intro a ha
            have hale : a.savings ≤ y.savings := by
              rcases List.mem_cons.mp ha with rfl | ha
              · exact le_refl _
              · exact hy a ha
            have hlt : a.savings < v := lt_of_le_of_lt hale (hxv ▸ h)
            simp [ne_of_lt hlt]
          rw [List.filter_cons, if_pos (by simp [hxv]), hnil]
          simp [hxv]
        · rw [List.filter_cons, if_neg (by simp [hxv])]
          simp [hxv]
      · rw [insertDesc, if_neg h]
        rw [List.filter_cons, List.filter_cons]
        by_cases hyv : y.savings = v
        · rw [if_pos (by simp [hyv]), if_pos (by simp [hyv]), ih hys]
          simp
        · rw [if_neg (by simp [hyv]), if_neg (by simp [hyv]), ih hys]

/-- The sorting fold is stable: among candidates with any one fixed savings
value the input order is kept. -/
theorem foldl_insert_filter (v : ℚ) :
    ∀ (l acc : List Candidate),
      acc.Pairwise (fun a b => b.savings ≤ a.savings) →
      (l.foldl (fun a x => insertDesc x a) acc).filter (fun c => c.savings = v) =
        acc.filter (fun c => c.savings = v) ++ l.filter (fun c => c.savings = v) := by
  intro l
  induction l with
  | nil => intro acc h; simp
  | cons x xs ih =>
      intro acc h
      rw [List.foldl_cons, ih (insertDesc x acc) (pairwise_insertDesc x acc h),
        filter_insertDesc x v acc h, List.filter_cons]
      by_cases hxv : x.savings = v
      · simp [hxv]
      · simp [hxv]

/-- Stability of the savings sort, as a filter identity. -/
theorem sortBySavingsDesc_filter (l : List Candidate) (v : ℚ) :
    (sortBySavingsDesc l).filter (fun c => c.savings = v) =
      l.filter (fun c => c.savings = v) := by
  have h := foldl_insert_filter v l [] (List.Pairwise.nil)
  simpa [sortBySavingsDesc] using h

/-- The sort does not add or remove candidates. -/
theorem mem_sortBySavingsDesc {a : Candidate} :
    ∀ {l acc : List Candidate},
      a ∈ l.foldl (fun ac x => insertDesc x ac) acc ↔ a ∈ acc ∨ a ∈ l := by
  intro l
  induction l with
  | nil => simp
  | cons x xs ih =>
      intro acc
      rw [List.foldl_cons, ih]
      simp [mem_insertDesc]
      tauto

end SortLemmas

section StepLemmas

/-- Unfolding of the per-category net consumption of a mixed combo. -/
theorem mixConsumption_cons (m : MixEntry) (ms : List MixEntry) (cat : MenuCategory) :
    mixConsumption (m :: ms) cat =
      (if m.category = cat then m.quantity else 0) + mixConsumption ms cat := by
  simp [mixConsumption]

/-- The per-entry subtraction loop of the mixed branch nets out to
`times * mixConsumption` on every category. -/
theorem mix_subtract_foldl (times : ℤ) :
    ∀ (ms : List MixEntry) (rem : MenuCategory → ℤ) (cat : MenuCategory),
      (ms.foldl
        (fun rem m => fun c2 =>
          if c2 = m.category then rem c2 - m.quantity * times else rem c2)
        rem) cat = rem cat - times * mixConsumption ms cat := by
  intro ms
  induction ms with
  | nil => intro rem cat; simp [mixConsumption]
  | cons m ms ih =>
      intro rem cat
      rw [List.foldl_cons, ih, mixConsumption_cons]
      by_cases h : cat = m.category
      · rw [if_pos h, if_pos (by rw [h])]
        ring
      · rw [if_neg h, if_neg (fun hc => h hc.symm)]
        ring

/-- Case analysis of one loop iteration: either the state is unchanged, or
exactly one application record is appended, with a positive application
count, the rule price charged that many times, and the per-category
consumption subtracted from the remaining counts. -/
theorem comboStep_cases (st : AppState) (c : Candidate) :
    comboStep st c = st ∨
    ∃ t : ℤ, 0 < t ∧ appliedShape c.rule = true ∧
      comboStep st c =
        { apps := st.apps ++ [(c.rule, c.savings, t)],
          remaining := fun cat => st.remaining cat - t * ruleConsumption c.rule cat,
          total := st.total + c.rule.price * (t : ℚ) } := by
  by_cases hqc : c.rule.type = PricingRuleType.QUANTITY_COMBO
  · cases hq : c.rule.quantity with
    | none => left; simp [comboStep, hqc, hq]
    | some q =>
        by_cases hq0 : q ≠ 0
        · by_cases hav : 0 < Int.fdiv (st.remaining c.rule.category) q
          · right
            refine ⟨Int.fdiv (st.remaining c.rule.category) q, hav, ?_, ?_⟩
            · simp [appliedShape, hqc]
            · simp only [comboStep, hqc, hq, if_pos, if_true, hq0, ne_eq,
                not_false_eq_true, hav]
              congr 1
              funext cat
              rw [ruleConsumption, if_pos hqc, hq]
              simp only [hq0, ne_eq, not_false_eq_true, if_true]
              by_cases hcat : cat = c.rule.category
              · rw [if_pos hcat, if_pos (by rw [hcat])]
                ring
              · rw [if_neg hcat, if_neg (fun hc => hcat hc.symm)]
                ring
          · left; simp [comboStep, hqc, hq, hq0, hav]
        · left; simp [comboStep, hqc, hq, hq0]
  · by_cases hmc : c.rule.type = PricingRuleType.MIXED_COMBO
    · cases hm : c.rule.mixQuantities with
      | none => left; simp [comboStep, hqc, hmc, hm]
      | some ms =>
          cases ht : mixTimes? st.remaining ms with
          | none => left; simp [comboStep, hqc, hmc, hm, ht]
          | some times =>
              by_cases hcan :
                  (ms.all fun m =>
                    Int.fdiv (st.remaining m.category) m.quantity ≠ 0) = true
                    ∧ 0 < times
              · right
                refine ⟨times, hcan.2, ?_, ?_⟩
                · simp [appliedShape, hqc, hmc, hm]
                · simp only [comboStep]
                  rw [if_neg hqc, if_pos hmc]
                  simp only [hm, ht]
                  rw [if_pos hcan]
                  congr 1
                  funext cat
                  rw [mix_subtract_foldl, ruleConsumption, if_neg hqc, if_pos hmc, hm]
              · left
                simp only [comboStep]
                rw [if_neg hqc, if_pos hmc]
                simp only [hm, ht]
                rw [if_neg hcan]
    · left
      simp only [comboStep]
      rw [if_neg hqc, if_neg hmc]

end StepLemmas

section FoldLemmas

/-- The applications recorded by the loop extend the incoming list, and the
new records correspond, in order, to a subsequence of the candidates. -/
theorem foldl_comboStep_apps :
    ∀ (l : List Candidate) (st : AppState),
      ∃ tl, (l.foldl comboStep st).apps = st.apps ++ tl ∧
        (tl.map fun a => Candidate.mk a.1 a.2.1).Sublist l ∧
        (∀ a ∈ tl, 0 < a.2.2 ∧ appliedShape a.1 = true) := by
  intro l
  induction l with
  | nil => intro st; exact ⟨[], by simp, by simp, by simp⟩
  | cons c cs ih =>
      intro st
      obtain ⟨tl, htl, hsub, hpos⟩ := ih (comboStep st c)
      rcases comboStep_cases st c with hcase | ⟨t, ht, hshape, hcase⟩
      · refine ⟨tl, by rw [List.foldl_cons, htl, hcase], hsub.cons c, hpos⟩
      · refine ⟨(c.rule, c.savings, t) :: tl, ?_, ?_, ?_⟩
        · rw [List.foldl_cons, htl, hcase]
          simp
        · simpa using hsub.cons₂ (Candidate.mk c.rule c.savings)
        · intro a ha
          rcases List.mem_cons.mp ha with rfl | ha
          · exact ⟨ht, hshape⟩
          · exact hpos a ha

/-- Coverage invariant of one fold: consumed plus remaining is preserved. -/
theorem foldl_comboStep_coverage :
    ∀ (l : List Candidate) (st : AppState) (cat : MenuCategory),
      consumedUnits (l.foldl comboStep st) cat + (l.foldl comboStep st).remaining cat
        = consumedUnits st cat + st.remaining cat := by
  intro l
  induction l with
  | nil => intro st cat; rfl
  | cons c cs ih =>
      intro st cat
      rw [List.foldl_cons, ih (comboStep st c) cat]
      rcases comboStep_cases st c with hcase | ⟨t, _, _, hcase⟩
      · rw [hcase]
      · rw [hcase]
        simp only [consumedUnits, List.map_append, List.sum_append, List.map_cons,
          List.map_nil, List.sum_cons, List.sum_nil]
        ring

/-- Total invariant of one fold: with non-negative candidate prices the
running total never decreases. -/
theorem foldl_comboStep_total :
    ∀ (l : List Candidate) (st : AppState),
      (∀ c ∈ l, 0 ≤ c.rule.price) →
      st.total ≤ (l.foldl comboStep st).total := by
  intro l
  induction l with
  | nil => intro st _; exact le_refl _
  | cons c cs ih =>
      intro st hp
      rw [List.foldl_cons]
      refine le_trans ?_ (ih (comboStep st c) fun x hx => hp x (List.mem_cons_of_mem c hx))
      rcases comboStep_cases st c with hcase | ⟨t, ht, _, hcase⟩
      · rw [hcase]
      · rw [hcase]
        have hpc : 0 ≤ c.rule.price := hp c (List.mem_cons_self c cs)
        have htq : (0 : ℚ) ≤ (t : ℚ) := by exact_mod_cast le_of_lt ht
        show st.total ≤ st.total + c.rule.price * (t : ℚ)
        nlinarith

/-- Membership facts about a candidate: its rule occurs in the rule list,
its savings is the computed savings, and it is strictly positive. -/
theorem mem_comboCandidates {c : Candidate} {rules : List PricingRule}
    (h : c ∈ comboCandidates rules) :
    c.rule ∈ rules ∧ c.savings = comboSavings (unitaryPrices rules) c.rule
      ∧ 0 < c.savings := by
  unfold comboCandidates at h
  rw [List.mem_filter] at h
  obtain ⟨hmem, hpos⟩ := h
  rw [List.mem_map] at hmem
  obtain ⟨r, hr, hc⟩ := hmem
  rw [List.mem_filter] at hr
  refine ⟨?_, ?_, by simpa using hpos⟩
  · rw [← hc]; exact hr.1
  · rw [← hc]

/-- Every application recorded by the full pipeline comes from a ranked
candidate. -/
theorem mem_apps_candidate {selections : List (String × ℤ)} {items : List MenuItem}
    {rules : List PricingRule} {a : PricingRule × ℚ × ℤ}
    (h : a ∈ (applyStateOf selections items rules).apps) :
    Candidate.mk a.1 a.2.1 ∈ comboCandidates rules ∧ 0 < a.2.2 ∧
      appliedShape a.1 = true := by
  unfold applyStateOf runCombos at h
  obtain ⟨tl, htl, hsub, hpos⟩ :=
    foldl_comboStep_apps (sortBySavingsDesc (comboCandidates rules))
      { apps := [], remaining := categoryCounts selections items, total := 0 }
  rw [htl] at h
  simp only [List.nil_append] at h
  have hc : Candidate.mk a.1 a.2.1 ∈ sortBySavingsDesc (comboCandidates rules) :=
    hsub.subset (List.mem_map_of_mem _ h)
  have hc2 : Candidate.mk a.1 a.2.1 ∈ comboCandidates rules := by
    have := mem_sortBySavingsDesc.mp (by simpa [sortBySavingsDesc] using hc)
    simpa using this
  exact ⟨hc2, (hpos a h).1, (hpos a h).2⟩

end FoldLemmas

section RemainderLemmas

/-- An accumulator-threading identity for conditional additions. -/
theorem ite_add_acc (P : Prop) [Decidable P] (acc x : ℚ) :
    (if P then acc + x else acc) = acc + (if P then x else 0) := by
  split <;> simp

/-- The remainder loop as the sum of the three per-category terms. -/
theorem remainderTotal_eq_sum (prices : MenuCategory → ℚ) (rem : MenuCategory → ℤ) :
    remainderTotal prices rem =
      remainderTerm prices rem MenuCategory.FIT
        + remainderTerm prices rem MenuCategory.LOWCARB
        + remainderTerm prices rem MenuCategory.CALDOS := by
  simp only [remainderTotal, allCategories, List.foldl_cons, List.foldl_nil,
    ite_add_acc, remainderTerm]
  ring

/-- The per-category term only looks at that category. -/
theorem remainderTerm_congr (prices : MenuCategory → ℚ) {f g : MenuCategory → ℤ}
    (c : MenuCategory) (h : f c = g c) :
    remainderTerm prices f c = remainderTerm prices g c := by
  simp [remainderTerm, h]

/-- Changing the remaining counts at a single category moves the remainder
total by exactly that category's term. -/
theorem remainderTotal_update (prices : MenuCategory → ℚ) (f g : MenuCategory → ℤ)
    (cc : MenuCategory) (h : ∀ c, c ≠ cc → f c = g c) :
    remainderTotal prices f - remainderTotal prices g =
      remainderTerm prices f cc - remainderTerm prices g cc := by
  rw [remainderTotal_eq_sum, remainderTotal_eq_sum]
  cases cc with
  | FIT =>
      rw [remainderTerm_congr prices MenuCategory.LOWCARB (h _ (by simp)),
        remainderTerm_congr prices MenuCategory.CALDOS (h _ (by simp))]
      ring
  | LOWCARB =>
      rw [remainderTerm_congr prices MenuCategory.FIT (h _ (by simp)),
        remainderTerm_congr prices MenuCategory.CALDOS (h _ (by simp))]
      ring
  | CALDOS =>
      rw [remainderTerm_congr prices MenuCategory.FIT (h _ (by simp)),
        remainderTerm_congr prices MenuCategory.LOWCARB (h _ (by simp))]
      ring

/-- Non-negativity of each remainder term under non-negative unit prices. -/
theorem remainderTerm_nonneg (prices : MenuCategory → ℚ) (rem : MenuCategory → ℤ)
    (c : MenuCategory) (hp : 0 ≤ prices c) : 0 ≤ remainderTerm prices rem c := by
  unfold remainderTerm
  split
  · rename_i h
    have : (0 : ℚ) ≤ ((rem c : ℤ) : ℚ) := by exact_mod_cast le_of_lt h
    exact mul_nonneg hp this
  · exact le_refl _

/-- Non-negativity of the remainder total under non-negative unit prices. -/
theorem remainderTotal_nonneg (prices : MenuCategory → ℚ) (rem : MenuCategory → ℤ)
    (hp : ∀ c, 0 ≤ prices c) : 0 ≤ remainderTotal prices rem := by
  rw [remainderTotal_eq_sum]
  have h1 := remainderTerm_nonneg prices rem MenuCategory.FIT (hp _)
  have h2 := remainderTerm_nonneg prices rem MenuCategory.LOWCARB (hp _)
  have h3 := remainderTerm_nonneg prices rem MenuCategory.CALDOS (hp _)
  linarith

/-- The unit-price fold keeps prices non-negative. -/
theorem unitaryPrices_foldl_nonneg :
    ∀ (l : List PricingRule) (f : MenuCategory → ℚ),
      (∀ r ∈ l, 0 ≤ r.price) → (∀ c, 0 ≤ f c) →
      ∀ c, 0 ≤ (l.foldl
        (fun prices r => fun c => if c = r.category then r.price else prices c) f) c := by
  intro l
  induction l with
  | nil => intro f _ hf c; exact hf c
  | cons r rs ih =>
      intro f hl hf c
      rw [List.foldl_cons]
      refine ih _ (fun x hx => hl x (List.mem_cons_of_mem r hx)) ?_ c
      intro c2
      by_cases h : c2 = r.category
      · rw [if_pos h]; exact hl r (List.mem_cons_self r rs)
      · rw [if_neg h]; exact hf c2

/-- Unit prices are non-negative when every rule price is. -/
theorem unitaryPrices_nonneg (rules : List PricingRule)
    (hp : ∀ r ∈ rules, 0 ≤ r.price) : ∀ c, 0 ≤ unitaryPrices rules c := by
  unfold unitaryPrices
  refine unitaryPrices_foldl_nonneg _ _ ?_ (fun _ => le_refl 0)
  intro r hr
  exact hp r (List.mem_filter.mp hr).1

end RemainderLemmas

section PipelineLemmas

/-- Non-unitary rules do not affect the unit-price lookup. -/
theorem unitaryPrices_middle (l1 l2 : List PricingRule) (r : PricingRule)
    (h : r.type ≠ PricingRuleType.UNITARY) :
    unitaryPrices (l1 ++ r :: l2) = unitaryPrices (l1 ++ l2) := by
  unfold unitaryPrices
  rw [List.filter_append, List.filter_append, List.filter_cons, if_neg (by simp [h])]

/-- A non-unitary rule with non-positive computed savings does not change
the candidate list. -/
theorem comboCandidates_middle (l1 l2 : List PricingRule) (r : PricingRule)
    (ht : r.type ≠ PricingRuleType.UNITARY)
    (hs : comboSavings (unitaryPrices (l1 ++ l2)) r ≤ 0) :
    comboCandidates (l1 ++ r :: l2) = comboCandidates (l1 ++ l2) := by
  unfold comboCandidates
  rw [unitaryPrices_middle l1 l2 r ht]
  rw [List.filter_append, List.filter_append, List.filter_cons, if_pos (by simp [ht])]
  rw [List.map_append, List.map_append, List.map_cons]
  rw [List.filter_append, List.filter_append, List.filter_cons]
  rw [if_neg (by simp [not_lt.mpr hs])]

/-- Dropping a non-unitary rule with non-positive savings leaves the whole
result unchanged, and such a rule is never among the applied combos. -/
theorem drop_nonpositive_combo (selections : List (String × ℤ)) (items : List MenuItem)
    (l1 l2 : List PricingRule) (r : PricingRule)
    (ht : r.type ≠ PricingRuleType.UNITARY)
    (hs : comboSavings (unitaryPrices (l1 ++ r :: l2)) r ≤ 0) :
    calculateBestPrice selections items (l1 ++ r :: l2) =
        calculateBestPrice selections items (l1 ++ l2) ∧
      ∀ a ∈ (calculateBestPrice selections items (l1 ++ r :: l2)).appliedCombos,
        a.rule ≠ r := by
  have hup := unitaryPrices_middle l1 l2 r ht
  have hs2 : comboSavings (unitaryPrices (l1 ++ l2)) r ≤ 0 := by rw [← hup]; exact hs
  have hcand := comboCandidates_middle l1 l2 r ht hs2
  constructor
  · unfold calculateBestPrice applyStateOf
    rw [hup, hcand]
  · intro a ha hra
    unfold calculateBestPrice at ha
    simp only [appliedCombosOf, List.mem_map] at ha
    obtain ⟨x, hx, hxa⟩ := ha
    obtain ⟨hxc, _, _⟩ := mem_apps_candidate hx
    obtain ⟨_, hxs, hxpos⟩ := mem_comboCandidates hxc
    have hxr : x.1 = r := by rw [← hxa] at hra; exact hra
    rw [hcand] at hxc
    obtain ⟨_, hxs2, hxpos2⟩ := mem_comboCandidates hxc
    rw [hxs2, hxr] at hxpos2
    exact absurd hs2 (not_le.mpr hxpos2)

end PipelineLemmas

section CountLemmas

/-- The aggregation fold adds, for each category, exactly the quantities of
the entries resolving to it, whatever their sign. -/
theorem categoryCounts_foldl (items : List MenuItem) :
    ∀ (sel : List (String × ℤ)) (counts : MenuCategory → ℤ) (cat : MenuCategory),
      (sel.foldl
        (fun counts e =>
          match itemLookup items e.1 with
          | some it => fun c => if c = it.category then counts c + e.2 else counts c
          | none => counts)
        counts) cat
        = counts cat + ((sel.filter fun e => resolvesTo items e.1 cat).map
            fun e => e.2).sum := by
  intro sel
  induction sel with
  | nil => intro counts cat; simp
  | cons e sel ih =>
      intro counts cat
      rw [List.foldl_cons, List.filter_cons]
      cases hl : itemLookup items e.1 with
      | none =>
          rw [if_neg (by simp [resolvesTo, hl])]
          simp only [hl]
          exact ih counts cat
      | some it =>
          by_cases hc : it.category = cat
          · rw [if_pos (by simp [resolvesTo, hl, hc])]
            simp only [hl, List.map_cons, List.sum_cons]
            rw [ih _ cat, if_pos hc.symm]
            ring
          · rw [if_neg (by simp [resolvesTo, hl, hc])]
            simp only [hl]
            rw [ih _ cat, if_neg (fun hcc => hc hcc.symm)]

end CountLemmas

section MixTimesLemmas

/-- The min-accumulating fold is a lower bound of its start value and of
every entry's available count. -/
theorem mixTimesFrom_le (rem : MenuCategory → ℤ) :
    ∀ (ms : List MixEntry) (t : ℤ),
      mixTimesFrom rem t ms ≤ t ∧
        ∀ m ∈ ms, mixTimesFrom rem t ms ≤ Int.fdiv (rem m.category) m.quantity := by
  intro ms
  induction ms with
  | nil => intro t; exact ⟨le_refl _, by simp⟩
  | cons m ms ih =>
      intro t
      rw [mixTimesFrom]
      obtain ⟨h1, h2⟩ := ih (min t (Int.fdiv (rem m.category) m.quantity))
      refine ⟨le_trans h1 (min_le_left _ _), ?_⟩
      intro m2 hm2
      rcases List.mem_cons.mp hm2 with rfl | hm2
      · exact le_trans h1 (min_le_right _ _)
      · exact h2 m2 hm2

/-- The min-accumulating fold attains its start value or some entry's
available count. -/
theorem mixTimesFrom_attained (rem : MenuCategory → ℤ) :
    ∀ (ms : List MixEntry) (t : ℤ),
      mixTimesFrom rem t ms = t ∨
        ∃ m ∈ ms, Int.fdiv (rem m.category) m.quantity = mixTimesFrom rem t ms := by
  intro ms
  induction ms with
  | nil => intro t; exact Or.inl rfl
  | cons m ms ih =>
      intro t
      rw [mixTimesFrom]
      rcases ih (min t (Int.fdiv (rem m.category) m.quantity)) with h | ⟨m2, hm2, he⟩
      · rw [h]
        rcases le_total t (Int.fdiv (rem m.category) m.quantity) with hle | hle
        · exact Or.inl (min_eq_left hle)
        · exact Or.inr ⟨m, List.mem_cons_self m ms, (min_eq_right hle).symm⟩
      · exact Or.inr ⟨m2, List.mem_cons_of_mem m hm2, he⟩

/-- On a non-empty requirement list `mixTimes?` returns the minimum of the
per-entry available counts: a lower bound that is attained. -/
theorem mixTimes?_spec (rem : MenuCategory → ℤ) (m : MixEntry) (ms : List MixEntry) :
    ∃ t, mixTimes? rem (m :: ms) = some t ∧
      (∀ m2 ∈ m :: ms, t ≤ Int.fdiv (rem m2.category) m2.quantity) ∧
      ∃ m2 ∈ m :: ms, Int.fdiv (rem m2.category) m2.quantity = t := by
  refine ⟨mixTimesFrom rem (Int.fdiv (rem m.category) m.quantity) ms, rfl, ?_, ?_⟩
  · intro m2 hm2
    obtain ⟨h1, h2⟩ := mixTimesFrom_le rem ms (Int.fdiv (rem m.category) m.quantity)
    rcases List.mem_cons.mp hm2 with rfl | hm2
    · exact h1
    · exact h2 m2 hm2
  · rcases mixTimesFrom_attained rem ms (Int.fdiv (rem m.category) m.quantity) with h | ⟨m2, hm2, he⟩
    · exact ⟨m, List.mem_cons_self m ms, h.symm⟩
    · exact ⟨m2, List.mem_cons_of_mem m hm2, he⟩

end MixTimesLemmas

section BreakdownLemmas

/-- Every applied-shaped rule produces a breakdown line. -/
theorem lineOf_isSome (a : AppliedCombo) (h : appliedShape a.rule = true) :
    (lineOf a).isSome = true := by
  unfold appliedShape at h
  unfold lineOf
  by_cases hqc : a.rule.type = PricingRuleType.QUANTITY_COMBO
  · rw [if_pos hqc]; rfl
  · rw [if_neg hqc]
    rw [if_neg hqc] at h
    by_cases hmc : a.rule.type = PricingRuleType.MIXED_COMBO
    · rw [if_pos hmc]
      rw [if_pos hmc] at h
      cases hm : a.rule.mixQuantities with
      | none => rw [hm] at h; simp at h
      | some ms => rfl
    · rw [if_neg hmc] at h
      simp at h

/-- A `filterMap` over options that are all present is a `map` of the
default-extracted values. -/
theorem filterMap_eq_map_of_isSome {α β : Type} (f : α → Option β) (d : β) :
    ∀ (l : List α), (∀ a ∈ l, (f a).isSome = true) →
      l.filterMap f = l.map fun a => (f a).getD d := by
  intro l
  induction l with
  | nil => intro _; rfl
  | cons x xs ih =>
      intro h
      rw [List.filterMap_cons, List.map_cons]
      have hx := h x (List.mem_cons_self x xs)
      cases hfx : f x with
      | none => rw [hfx] at hx; simp at hx
      | some b =>
          simp only [hfx]
          rw [ih fun a ha => h a (List.mem_cons_of_mem x ha)]
          rfl

end BreakdownLemmas

section ConvenienceLemmas

/-- Sorting neither adds nor removes candidates. -/
theorem mem_sortD {a : Candidate} {l : List Candidate} :
    a ∈ sortBySavingsDesc l ↔ a ∈ l := by
  unfold sortBySavingsDesc
  rw [mem_sortBySavingsDesc]
  simp

/-- The recorded applications of the pipeline are a subsequence of the
ranked candidates. -/
theorem applyStateOf_apps_sublist (selections : List (String × ℤ))
    (items : List MenuItem) (rules : List PricingRule) :
    ((applyStateOf selections items rules).apps.map
        fun a => Candidate.mk a.1 a.2.1).Sublist
      (sortBySavingsDesc (comboCandidates rules)) := by
  obtain ⟨tl, htl, hsub, _⟩ :=
    foldl_comboStep_apps (sortBySavingsDesc (comboCandidates rules))
      { apps := [], remaining := categoryCounts selections items, total := 0 }
  have happs : (applyStateOf selections items rules).apps = tl := by
    unfold applyStateOf runCombos
    rw [htl]
    simp
  rw [happs]
  exact hsub

/-- The breakdown field of the result, as built by the source. -/
theorem calculateBestPrice_breakdown (selections : List (String × ℤ))
    (items : List MenuItem) (rules : List PricingRule) :
    (calculateBestPrice selections items rules).breakdown =
      if 0 < (calculateBestPrice selections items rules).appliedCombos.length
      then comboHeader ::
        (calculateBestPrice selections items rules).appliedCombos.filterMap lineOf
      else [] := rfl

end ConvenienceLemmas

section QuantityComboLemmas

/-- The computed savings of a well-formed quantity combo. -/
theorem comboSavings_qc (prices : MenuCategory → ℚ) (r : PricingRule) (q : ℤ)
    (hrt : r.type = PricingRuleType.QUANTITY_COMBO) (hrq : r.quantity = some q)
    (hq0 : q ≠ 0) :
    comboSavings prices r = prices r.category * (q : ℚ) - r.price := by
  unfold comboSavings
  rw [if_pos hrt, hrq]
  simp [hq0]

/-- The loop iteration on an applicable quantity combo. -/
theorem comboStep_qc (st : AppState) (c : Candidate) (q : ℤ)
    (hrt : c.rule.type = PricingRuleType.QUANTITY_COMBO)
    (hrq : c.rule.quantity = some q) (hq0 : q ≠ 0)
    (hav : 0 < Int.fdiv (st.remaining c.rule.category) q) :
    comboStep st c =
      { apps := st.apps ++ [(c.rule, c.savings, Int.fdiv (st.remaining c.rule.category) q)],
        remaining := fun cat =>
          if cat = c.rule.category
          then st.remaining cat - q * Int.fdiv (st.remaining c.rule.category) q
          else st.remaining cat,
        total := st.total + c.rule.price
          * ((Int.fdiv (st.remaining c.rule.category) q : ℤ) : ℚ) } := by
  simp only [comboStep]
  rw [if_pos hrt]
  simp only [hrq]
  rw [if_pos hq0, if_pos hav]

/-- With only unitary rules there is no combo candidate. -/
theorem comboCandidates_all_unitary (rules : List PricingRule)
    (hu : ∀ s ∈ rules, s.type = PricingRuleType.UNITARY) :
    comboCandidates rules = [] := by
  unfold comboCandidates
  have hf : rules.filter (fun r => r.type ≠ PricingRuleType.UNITARY) = [] :=
    List.filter_eq_nil_iff.mpr (by intro a ha; simp [hu a ha])
  rw [hf]
  rfl

/-- With unitary rules plus one positive-savings combo rule, that rule is
the only candidate. -/
theorem comboCandidates_single (l1 l2 : List PricingRule) (r : PricingRule)
    (hu : ∀ s ∈ l1 ++ l2, s.type = PricingRuleType.UNITARY)
    (hrt : r.type ≠ PricingRuleType.UNITARY)
    (hs : 0 < comboSavings (unitaryPrices (l1 ++ r :: l2)) r) :
    comboCandidates (l1 ++ r :: l2) =
      [Candidate.mk r (comboSavings (unitaryPrices (l1 ++ r :: l2)) r)] := by
  unfold comboCandidates
  rw [List.filter_append, List.filter_cons]
  have hl1 : l1.filter (fun s => s.type ≠ PricingRuleType.UNITARY) = [] :=
    List.filter_eq_nil_iff.mpr
      (by intro a ha; simp [hu a (List.mem_append_left l2 ha)])
  have hl2 : l2.filter (fun s => s.type ≠ PricingRuleType.UNITARY) = [] :=
    List.filter_eq_nil_iff.mpr
      (by intro a ha; simp [hu a (List.mem_append_right l1 ha)])
  rw [if_pos (by simp [hrt]), hl1, hl2]
  simp [List.filter_cons, hs]

end QuantityComboLemmas

section Claims

/-- C1 (counterexample): the claim that non-positive selection quantities are
excluded from the category counts fails on the code: the aggregation adds
every resolved quantity unconditionally, so a selection of 3 units of item a
and -1 unit of item b (both FIT) yields a FIT count of 2, while the sum over
only the positive entries is 3. -/
theorem c1_counterexample :
    categoryCounts [("a", 3), ("b", -1)] [exItemA, exItemB] MenuCategory.FIT ≠
      positiveOnlyCount [("a", 3), ("b", -1)] [exItemA, exItemB] MenuCategory.FIT := by
  decide

/-- C1 (amended): the aggregated count of a category equals the sum of the
quantities of every selection entry whose id resolves to an item of that
category, with no sign filtering: zero entries add nothing numerically, but
negative quantities are added as-is. -/
theorem c1_amended (selections : List (String × ℤ)) (items : List MenuItem)
    (cat : MenuCategory) :
    categoryCounts selections items cat =
      ((selections.filter fun e => resolvesTo items e.1 cat).map fun e => e.2).sum := by
  have h := categoryCounts_foldl items selections (fun _ => 0) cat
  simpa [categoryCounts] using h

/-- C2: coverage invariant: for every input and every category, the units
consumed by the applied combos (times applied multiplied by per-application
consumption, summed over the recorded applications) plus the remaining units
priced at unit price equal the total units selected for that category. -/
theorem c2_coverage (selections : List (String × ℤ)) (items : List MenuItem)
    (rules : List PricingRule) (cat : MenuCategory) :
    consumedUnits (applyStateOf selections items rules) cat
        + (applyStateOf selections items rules).remaining cat
      = categoryCounts selections items cat := by
  have h := foldl_comboStep_coverage (sortBySavingsDesc (comboCandidates rules))
    { apps := [], remaining := categoryCounts selections items, total := 0 } cat
  simpa [applyStateOf, runCombos, consumedUnits] using h

/-- C5: tie-break determinism: the ranking is stable, so candidates with
exactly equal savings keep their input order (first conjunct, stated as a
filter identity at every fixed savings value), and the applied combos are a
subsequence of the ranked candidates, so combos applied in the loop — in
particular two applied combos with equal savings — appear in appliedCombos
in that same order (second conjunct). -/
theorem c5_tiebreak (selections : List (String × ℤ)) (items : List MenuItem)
    (rules : List PricingRule) (v : ℚ) :
    (sortBySavingsDesc (comboCandidates rules)).filter (fun c => c.savings = v)
        = (comboCandidates rules).filter (fun c => c.savings = v)
      ∧ ((applyStateOf selections items rules).apps.map
          fun a => Candidate.mk a.1 a.2.1).Sublist
        (sortBySavingsDesc (comboCandidates rules)) :=
  ⟨sortBySavingsDesc_filter (comboCandidates rules) v,
    applyStateOf_apps_sublist selections items rules⟩

/-- C7: a combo whose computed savings is non-positive is never applied: the
whole result is the same as with the rule removed (so it contributes nothing
to the total and appears in neither appliedCombos nor breakdown, and no
error is reported), and no applied combo carries that rule. -/
theorem c7_nonpositive_savings (selections : List (String × ℤ))
    (items : List MenuItem) (l1 l2 : List PricingRule) (r : PricingRule)
    (ht : r.type ≠ PricingRuleType.UNITARY)
    (hs : comboSavings (unitaryPrices (l1 ++ r :: l2)) r ≤ 0) :
    calculateBestPrice selections items (l1 ++ r :: l2) =
        calculateBestPrice selections items (l1 ++ l2)
      ∧ ∀ a ∈ (calculateBestPrice selections items (l1 ++ r :: l2)).appliedCombos,
          a.rule ≠ r :=
  drop_nonpositive_combo selections items l1 l2 r ht hs

/-- C7 (witness): a 2-for-25 FIT combo against unit price 10 has savings -5
and is dropped: the result with it equals the result without it. -/
theorem c7_nonpositive_savings_witness :
    calculateBestPrice [("a", 4)] [exItemA] ([exUnitFit] ++ exComboBad :: []) =
        calculateBestPrice [("a", 4)] [exItemA] ([exUnitFit] ++ [])
      ∧ ∀ a ∈ (calculateBestPrice [("a", 4)] [exItemA]
          ([exUnitFit] ++ exComboBad :: [])).appliedCombos, a.rule ≠ exComboBad :=
  c7_nonpositive_savings [("a", 4)] [exItemA] [exUnitFit] [] exComboBad
    (by decide)
    (by
      have h : comboSavings (unitaryPrices ([exUnitFit] ++ exComboBad :: []))
          exComboBad = 10 * (2 : ℚ) - 25 := by
        rw [comboSavings_qc _ _ 2 rfl rfl (by decide)]
        simp [unitaryPrices, exUnitFit, exComboBad, List.filter_cons]
        try norm_num
      rw [h]
      norm_num)

/-- C8: with non-negative rule prices and non-negative selection quantities
the returned total is non-negative. -/
theorem c8_total_nonneg (selections : List (String × ℤ)) (items : List MenuItem)
    (rules : List PricingRule)
    (hp : ∀ r ∈ rules, 0 ≤ r.price) (hq : ∀ e ∈ selections, 0 ≤ e.2) :
    0 ≤ (calculateBestPrice selections items rules).total := by
  have h1 : 0 ≤ (applyStateOf selections items rules).total := by
    unfold applyStateOf runCombos
    have h := foldl_comboStep_total (sortBySavingsDesc (comboCandidates rules))
      { apps := [], remaining := categoryCounts selections items, total := 0 }
      (by
        intro c hc
        have hc2 : c ∈ comboCandidates rules := mem_sortD.mp hc
        exact hp c.rule (mem_comboCandidates hc2).1)
    simpa using h
  have h2 : 0 ≤ remainderTotal (unitaryPrices rules)
      (applyStateOf selections items rules).remaining :=
    remainderTotal_nonneg _ _ (unitaryPrices_nonneg rules hp)
  show 0 ≤ (applyStateOf selections items rules).total
    + remainderTotal (unitaryPrices rules)
        (applyStateOf selections items rules).remaining
  linarith

/-- C8 (witness): a concrete selection with non-negative prices and
quantities has a non-negative total. -/
theorem c8_total_nonneg_witness :
    0 ≤ (calculateBestPrice [("a", 2)] [exItemA] [exUnitFit]).total :=
  c8_total_nonneg [("a", 2)] [exItemA] [exUnitFit]
    (by intro r hr; rw [List.mem_singleton.mp hr]; norm_num [exUnitFit])
    (by decide)

/-- C10: a QUANTITY_COMBO rule with an absent or zero quantity field, and a
MIXED_COMBO rule with an absent mixQuantities field, keeps computed savings
0, is filtered out before ranking, appears in no applied combo, and removing
it leaves the whole result (total, appliedCombos, breakdown) unchanged; the
computation does not fail on such a rule. -/
theorem c10_degenerate_rules (selections : List (String × ℤ))
    (items : List MenuItem) (l1 l2 : List PricingRule) (r : PricingRule)
    (h : (r.type = PricingRuleType.QUANTITY_COMBO
            ∧ (r.quantity = none ∨ r.quantity = some 0))
        ∨ (r.type = PricingRuleType.MIXED_COMBO ∧ r.mixQuantities = none)) :
    comboSavings (unitaryPrices (l1 ++ r :: l2)) r = 0
      ∧ calculateBestPrice selections items (l1 ++ r :: l2) =
          calculateBestPrice selections items (l1 ++ l2)
      ∧ ∀ a ∈ (calculateBestPrice selections items (l1 ++ r :: l2)).appliedCombos,
          a.rule ≠ r := by
  have ht : r.type ≠ PricingRuleType.UNITARY := by
    rcases h with ⟨h1, _⟩ | ⟨h1, _⟩ <;> rw [h1] <;> decide
  have hz : comboSavings (unitaryPrices (l1 ++ r :: l2)) r = 0 := by
    rcases h with ⟨h1, h2⟩ | ⟨h1, h2⟩
    · unfold comboSavings
      rw [if_pos h1]
      rcases h2 with h2 | h2 <;> rw [h2] <;> simp
    · unfold comboSavings
      rw [if_neg (by rw [h1]; decide), if_pos h1, h2]
  exact ⟨hz, drop_nonpositive_combo selections items l1 l2 r ht (le_of_eq hz)⟩

/-- C10 (witness): a quantity combo whose quantity field is zero is harmless
at a concrete input. -/
theorem c10_degenerate_rules_witness :
    comboSavings (unitaryPrices ([exUnitFit] ++ exDegen :: [])) exDegen = 0
      ∧ calculateBestPrice [("a", 4)] [exItemA] ([exUnitFit] ++ exDegen :: []) =
          calculateBestPrice [("a", 4)] [exItemA] ([exUnitFit] ++ [])
      ∧ ∀ a ∈ (calculateBestPrice [("a", 4)] [exItemA]
          ([exUnitFit] ++ exDegen :: [])).appliedCombos, a.rule ≠ exDegen :=
  c10_degenerate_rules [("a", 4)] [exItemA] [exUnitFit] [] exDegen
    (Or.inl ⟨rfl, Or.inr rfl⟩)

/-- C4 (counterexample): the claim that appliedCombos is ordered most saving
per UNIT first fails: with unit price 10, a 10-for-90 combo (savings 10, one
per unit) outranks a 2-for-11 combo (savings 9, four and a half per unit),
because the sort ranks by per-application savings; on a selection of 12 FIT
units both apply, in that order, and the per-unit savings sequence increases. -/
theorem c4_counterexample :
    ¬ (((applyStateOf [("a", 12)] [exItemA] [exUnitFit, exComboA, exComboB]).apps.map
        fun a => a.2.1 / ((unitsPerApplication a.1 : ℤ) : ℚ)).Pairwise
          fun x y => y ≤ x) := by
  have h1 : comboCandidates [exUnitFit, exComboA, exComboB] =
      [Candidate.mk exComboA 10, Candidate.mk exComboB 9] := by
    simp [comboCandidates, unitaryPrices, comboSavings, exUnitFit, exComboA, exComboB,
      List.filter_cons]
    norm_num
  have h2 : sortBySavingsDesc [Candidate.mk exComboA 10, Candidate.mk exComboB 9] =
      [Candidate.mk exComboA 10, Candidate.mk exComboB 9] := by
    simp [sortBySavingsDesc, insertDesc]
    norm_num
  have h3 : (applyStateOf [("a", 12)] [exItemA] [exUnitFit, exComboA, exComboB]).apps =
      [(exComboA, 10, 1), (exComboB, 9, 1)] := by
    unfold applyStateOf
    rw [h1, h2]
    simp [runCombos, comboStep, categoryCounts, itemLookup, exItemA, exComboA, exComboB,
      Int.fdiv]
  rw [h3]
  simp [unitsPerApplication, ruleConsumption, allCategories, mixConsumption,
    exComboA, exComboB, List.pairwise_cons]
  norm_num

/-- C4 (amended): appliedCombos is in application order with per-application
savings non-increasing (most saving per application first); the claim's
per-unit ordering is replaced by the per-application ordering the sort
actually uses. -/
theorem c4_amended (selections : List (String × ℤ)) (items : List MenuItem)
    (rules : List PricingRule) :
    (((applyStateOf selections items rules).apps.map fun a => a.2.1).Pairwise
      fun x y => y ≤ x) := by
  have hsorted := sortBySavingsDesc_pairwise (comboCandidates rules)
  have hsub := applyStateOf_apps_sublist selections items rules
  have hp := hsorted.sublist hsub
  rw [List.pairwise_map] at hp ⊢
  exact hp

/-- C9: the breakdown is empty exactly when appliedCombos is empty;
otherwise it is the header line followed by exactly one line per applied
combo in application order; every applied combo produces a line (stating its
shape, bundle price and savings per `lineOf`), and every monetary value is
rendered by `toFixed2`, whose fractional part has exactly two digits. -/
theorem c9_breakdown (selections : List (String × ℤ)) (items : List MenuItem)
    (rules : List PricingRule) :
    ((calculateBestPrice selections items rules).breakdown = []
        ↔ (calculateBestPrice selections items rules).appliedCombos = [])
      ∧ ((calculateBestPrice selections items rules).appliedCombos ≠ [] →
          (calculateBestPrice selections items rules).breakdown =
            comboHeader ::
              (calculateBestPrice selections items rules).appliedCombos.map
                (fun a => (lineOf a).getD emptyLine))
      ∧ (∀ a ∈ (calculateBestPrice selections items rules).appliedCombos,
          (lineOf a).isSome = true)
      ∧ (∀ q : ℚ, toFixed2 q = intString q ++ "." ++ fracString q
          ∧ (fracString q).length = 2) := by
  have hshape : ∀ a ∈ (calculateBestPrice selections items rules).appliedCombos,
      (lineOf a).isSome = true := by
    intro a ha
    have ha2 : a ∈ appliedCombosOf (applyStateOf selections items rules) := ha
    unfold appliedCombosOf at ha2
    rw [List.mem_map] at ha2
    obtain ⟨x, hx, hxa⟩ := ha2
    obtain ⟨_, _, hsh⟩ := mem_apps_candidate hx
    rw [← hxa]
    exact lineOf_isSome _ hsh
  refine ⟨?_, ?_, hshape, ?_⟩
  · rw [calculateBestPrice_breakdown]
    constructor
    · intro h
      by_contra hne
      rw [if_pos (List.length_pos.mpr hne)] at h
      exact List.cons_ne_nil _ _ h
    · intro h
      rw [h]
      simp
  · intro hne
    rw [calculateBestPrice_breakdown, if_pos (List.length_pos.mpr hne)]
    rw [filterMap_eq_map_of_isSome lineOf emptyLine _ hshape]
  · intro q
    exact ⟨rfl, rfl⟩

/-- C9 (witness): the breakdown contract instantiated at a concrete input. -/
theorem c9_breakdown_witness :
    ((calculateBestPrice [] [] []).breakdown = []
        ↔ (calculateBestPrice [] [] []).appliedCombos = [])
      ∧ ((calculateBestPrice [] [] []).appliedCombos ≠ [] →
          (calculateBestPrice [] [] []).breakdown =
            comboHeader ::
              (calculateBestPrice [] [] []).appliedCombos.map
                (fun a => (lineOf a).getD emptyLine))
      ∧ (∀ a ∈ (calculateBestPrice [] [] []).appliedCombos,
          (lineOf a).isSome = true)
      ∧ (∀ q : ℚ, toFixed2 q = intString q ++ "." ++ fracString q
          ∧ (fracString q).length = 2) :=
  c9_breakdown [] [] []

/-- C6: for a mixed combo considered by the loop, with its requirement
quantities at least 1 and non-negative remaining counts, the application
count is the minimum over the requirements of floor(remaining/quantity)
(here `t`, characterized as an attained lower bound): the count is
non-negative; if it is positive the combo is applied exactly `t` times,
adding `price * t` to the total and subtracting `quantity * t` of every
required category from the remaining counts; if it is zero, or any single
requirement's available count is zero, the combo is not applied at all. -/
theorem c6_mixed_step (st : AppState) (c : Candidate) (ms : List MixEntry) (t : ℤ)
    (hmc : c.rule.type = PricingRuleType.MIXED_COMBO)
    (hm : c.rule.mixQuantities = some ms)
    (hq : ∀ m ∈ ms, 1 ≤ m.quantity)
    (hrem : ∀ cat, 0 ≤ st.remaining cat)
    (hlb : ∀ m ∈ ms, t ≤ Int.fdiv (st.remaining m.category) m.quantity)
    (hat : ∃ m ∈ ms, Int.fdiv (st.remaining m.category) m.quantity = t) :
    0 ≤ t
      ∧ (0 < t →
          comboStep st c =
            { apps := st.apps ++ [(c.rule, c.savings, t)],
              remaining := fun cat => st.remaining cat - t * mixConsumption ms cat,
              total := st.total + c.rule.price * (t : ℚ) })
      ∧ (t = 0 → comboStep st c = st)
      ∧ ((∃ m ∈ ms, Int.fdiv (st.remaining m.category) m.quantity = 0) →
          comboStep st c = st) := by
  have hqc : ¬ c.rule.type = PricingRuleType.QUANTITY_COMBO := by rw [hmc]; decide
  have ht0 : 0 ≤ t := by
    obtain ⟨mb, hmb, hvb⟩ := hat
    rw [← hvb]
    exact Int.fdiv_nonneg (hrem _) (by linarith [hq mb hmb])
  cases ms with
  | nil => exact absurd hat (by simp)
  | cons m0 ms2 =>
      obtain ⟨t2, ht2, hlb2, hat2⟩ := mixTimes?_spec st.remaining m0 ms2
      have htt : t = t2 := by
        obtain ⟨ma, hma, hva⟩ := hat2
        obtain ⟨mb, hmb, hvb⟩ := hat
        exact le_antisymm (hva ▸ hlb ma hma) (hvb ▸ hlb2 mb hmb)
      refine ⟨ht0, ?_, ?_, ?_⟩
      · intro hpos
        have hall : ((m0 :: ms2).all fun m =>
            Int.fdiv (st.remaining m.category) m.quantity ≠ 0) = true := by
          rw [List.all_eq_true]
          intro m hm2
          have hgt := lt_of_lt_of_le hpos (hlb m hm2)
          simp [ne_of_gt hgt]
        simp only [comboStep]
        rw [if_neg hqc, if_pos hmc]
        simp only [hm, ht2]
        rw [if_pos ⟨hall, htt ▸ hpos⟩]
        rw [← htt]
        congr 1
        funext cat
        rw [mix_subtract_foldl]
      · intro h0
        simp only [comboStep]
        rw [if_neg hqc, if_pos hmc]
        simp only [hm, ht2]
        rw [if_neg ?_]
        rintro ⟨_, hpos⟩
        rw [← htt, h0] at hpos
        exact lt_irrefl 0 hpos
      · rintro ⟨mz, hmz, hvz⟩
        have hle : t ≤ 0 := hvz ▸ hlb mz hmz
        simp only [comboStep]
        rw [if_neg hqc, if_pos hmc]
        simp only [hm, ht2]
        rw [if_neg ?_]
        rintro ⟨_, hpos⟩
        rw [← htt] at hpos
        exact absurd hpos (not_lt.mpr hle)

/-- C6 (witness): a 2-FIT-plus-3-LOWCARB combo against 5 remaining units in
every category applies exactly once (minimum of floor(5/2)=2 and
floor(5/3)=1). -/
theorem c6_mixed_step_witness :
    0 ≤ (1 : ℤ)
      ∧ (0 < (1 : ℤ) →
          comboStep exSt exCand =
            { apps := exSt.apps ++ [(exCand.rule, exCand.savings, 1)],
              remaining := fun cat => exSt.remaining cat - 1 * mixConsumption exMs cat,
              total := exSt.total + exCand.rule.price * ((1 : ℤ) : ℚ) })
      ∧ ((1 : ℤ) = 0 → comboStep exSt exCand = exSt)
      ∧ ((∃ m ∈ exMs, Int.fdiv (exSt.remaining m.category) m.quantity = 0) →
          comboStep exSt exCand = exSt) :=
  c6_mixed_step exSt exCand exMs 1 rfl rfl (by decide) (by decide) (by decide)
    (by decide)

/-- C3 (counterexample): removing a positive-savings, applicable combo can
DECREASE the total: with unit price 10 and 10 FIT units selected, the
10-for-95 combo (savings 5) outranks and blocks the 5-for-46 combo (savings
4 each); with it the total is 95, without it the 5-for-46 combo applies
twice for 92 < 95, refuting `total without ≥ total with`. -/
theorem c3_counterexample :
    0 < comboSavings (unitaryPrices [exUnitFit, exComboX, exComboY]) exComboX
      ∧ 1 ≤ Int.fdiv (categoryCounts [("a", 10)] [exItemA] exComboX.category) 10
      ∧ (calculateBestPrice [("a", 10)] [exItemA] [exUnitFit, exComboY]).total <
          (calculateBestPrice [("a", 10)] [exItemA] [exUnitFit, exComboX, exComboY]).total := by
  have e1 : (calculateBestPrice [("a", 10)] [exItemA] [exUnitFit, exComboY]).total = 92 := by
    have h1 : comboCandidates [exUnitFit, exComboY] = [Candidate.mk exComboY 4] := by
      simp [comboCandidates, unitaryPrices, comboSavings, exUnitFit, exComboY,
        List.filter_cons]
      norm_num
    have h2 : sortBySavingsDesc [Candidate.mk exComboY 4] = [Candidate.mk exComboY 4] := rfl
    show (applyStateOf [("a", 10)] [exItemA] [exUnitFit, exComboY]).total
        + remainderTotal (unitaryPrices [exUnitFit, exComboY])
            (applyStateOf [("a", 10)] [exItemA] [exUnitFit, exComboY]).remaining = 92
    unfold applyStateOf
    rw [h1, h2]
    simp [runCombos, comboStep, categoryCounts, itemLookup, exItemA, exComboY, exUnitFit,
      remainderTotal, allCategories, unitaryPrices, Int.fdiv, List.filter_cons]
    try norm_num
  have e2 : (calculateBestPrice [("a", 10)] [exItemA]
      [exUnitFit, exComboX, exComboY]).total = 95 := by
    have h1 : comboCandidates [exUnitFit, exComboX, exComboY] =
        [Candidate.mk exComboX 5, Candidate.mk exComboY 4] := by
      simp [comboCandidates, unitaryPrices, comboSavings, exUnitFit, exComboX, exComboY,
        List.filter_cons]
      norm_num
    have h2 : sortBySavingsDesc [Candidate.mk exComboX 5, Candidate.mk exComboY 4] =
        [Candidate.mk exComboX 5, Candidate.mk exComboY 4] := by
      simp [sortBySavingsDesc, insertDesc]
      norm_num
    show (applyStateOf [("a", 10)] [exItemA] [exUnitFit, exComboX, exComboY]).total
        + remainderTotal (unitaryPrices [exUnitFit, exComboX, exComboY])
            (applyStateOf [("a", 10)] [exItemA] [exUnitFit, exComboX, exComboY]).remaining
        = 95
    unfold applyStateOf
    rw [h1, h2]
    simp [runCombos, comboStep, categoryCounts, itemLookup, exItemA, exComboX, exComboY,
      exUnitFit, remainderTotal, allCategories, unitaryPrices, Int.fdiv, List.filter_cons]
  refine ⟨?_, by decide, ?_⟩
  · rw [comboSavings_qc _ _ 10 rfl rfl (by decide)]
    simp [unitaryPrices, exUnitFit, exComboX, exComboY, List.filter_cons]
    try norm_num
  · rw [e1, e2]
    norm_num

/-- C3 (amended): when the combo is the only non-unitary rule in the list (a
quantity combo with quantity at least 1), has positive computed savings, and
is applicable to the aggregated selection, removing it never decreases the
total: the total without it is at least the total with it.  (The original
claim over arbitrary rule sets fails because a higher-ranked combo can block
better lower-ranked combos; see the counterexample.) -/
theorem c3_amended (selections : List (String × ℤ)) (items : List MenuItem)
    (l1 l2 : List PricingRule) (r : PricingRule) (q : ℤ)
    (hu : ∀ s ∈ l1 ++ l2, s.type = PricingRuleType.UNITARY)
    (hrt : r.type = PricingRuleType.QUANTITY_COMBO)
    (hrq : r.quantity = some q) (hq1 : 1 ≤ q)
    (hs : 0 < comboSavings (unitaryPrices (l1 ++ r :: l2)) r)
    (happ : 1 ≤ Int.fdiv (categoryCounts selections items r.category) q) :
    (calculateBestPrice selections items (l1 ++ r :: l2)).total ≤
      (calculateBestPrice selections items (l1 ++ l2)).total := by
  have hq0 : q ≠ 0 := by omega
  have hqpos : 0 < q := by omega
  have hup : unitaryPrices (l1 ++ r :: l2) = unitaryPrices (l1 ++ l2) :=
    unitaryPrices_middle l1 l2 r (by rw [hrt]; decide)
  have hcand1 : comboCandidates (l1 ++ r :: l2) =
      [Candidate.mk r (comboSavings (unitaryPrices (l1 ++ r :: l2)) r)] :=
    comboCandidates_single l1 l2 r hu (by rw [hrt]; decide) hs
  have hcand2 : comboCandidates (l1 ++ l2) = [] := comboCandidates_all_unitary _ hu
  have htpos : 0 < Int.fdiv (categoryCounts selections items r.category) q :=
    lt_of_lt_of_le zero_lt_one happ
  have hR : (calculateBestPrice selections items (l1 ++ l2)).total
      = remainderTotal (unitaryPrices (l1 ++ l2)) (categoryCounts selections items) := by
    show (applyStateOf selections items (l1 ++ l2)).total
        + remainderTotal (unitaryPrices (l1 ++ l2))
            (applyStateOf selections items (l1 ++ l2)).remaining
        = remainderTotal (unitaryPrices (l1 ++ l2)) (categoryCounts selections items)
    unfold applyStateOf
    rw [hcand2]
    show (0 : ℚ) + remainderTotal (unitaryPrices (l1 ++ l2))
        (categoryCounts selections items)
      = remainderTotal (unitaryPrices (l1 ++ l2)) (categoryCounts selections items)
    rw [zero_add]
  have hstep := comboStep_qc
    { apps := [], remaining := categoryCounts selections items, total := 0 }
    (Candidate.mk r (comboSavings (unitaryPrices (l1 ++ r :: l2)) r)) q hrt hrq hq0 htpos
  have hL : (calculateBestPrice selections items (l1 ++ r :: l2)).total
      = r.price * ((Int.fdiv (categoryCounts selections items r.category) q : ℤ) : ℚ)
        + remainderTotal (unitaryPrices (l1 ++ r :: l2))
            (fun cat => if cat = r.category
              then categoryCounts selections items cat
                - q * Int.fdiv (categoryCounts selections items r.category) q
              else categoryCounts selections items cat) := by
    show (applyStateOf selections items (l1 ++ r :: l2)).total
        + remainderTotal (unitaryPrices (l1 ++ r :: l2))
            (applyStateOf selections items (l1 ++ r :: l2)).remaining
        = _
    unfold applyStateOf
    rw [hcand1]
    show (comboStep
          { apps := [], remaining := categoryCounts selections items, total := 0 }
          (Candidate.mk r (comboSavings (unitaryPrices (l1 ++ r :: l2)) r))).total
        + remainderTotal (unitaryPrices (l1 ++ r :: l2))
            (comboStep
              { apps := [], remaining := categoryCounts selections items, total := 0 }
              (Candidate.mk r (comboSavings (unitaryPrices (l1 ++ r :: l2)) r))).remaining
        = _
    rw [hstep]
    show (0 : ℚ) + r.price
          * ((Int.fdiv (categoryCounts selections items r.category) q : ℤ) : ℚ)
        + remainderTotal (unitaryPrices (l1 ++ r :: l2))
            (fun cat => if cat = r.category
              then categoryCounts selections items cat
                - q * Int.fdiv (categoryCounts selections items r.category) q
              else categoryCounts selections items cat)
        = _
    rw [zero_add]
  rw [hL, hR, hup, ← hup]
  have hdiff := remainderTotal_update (unitaryPrices (l1 ++ r :: l2))
    (fun cat => if cat = r.category
      then categoryCounts selections items cat
        - q * Int.fdiv (categoryCounts selections items r.category) q
      else categoryCounts selections items cat)
    (categoryCounts selections items) r.category
    (fun c hc => if_neg hc)
  have hρ0 : 0 ≤ categoryCounts selections items r.category
      - q * Int.fdiv (categoryCounts selections items r.category) q := by
    have h1 := Int.fdiv_add_fmod (categoryCounts selections items r.category) q
    have h2 : 0 ≤ Int.fmod (categoryCounts selections items r.category) q := by
      rw [Int.fmod_eq_emod _ (le_of_lt hqpos)]
      exact Int.emod_nonneg _ (ne_of_gt hqpos)
    omega
  have hqt : q ≤ q * Int.fdiv (categoryCounts selections items r.category) q :=
    le_mul_of_one_le_right (le_of_lt hqpos) happ
  have hn : 0 < categoryCounts selections items r.category := by linarith
  have hterm_counts : remainderTerm (unitaryPrices (l1 ++ r :: l2))
      (categoryCounts selections items) r.category
      = unitaryPrices (l1 ++ r :: l2) r.category
        * ((categoryCounts selections items r.category : ℤ) : ℚ) := by
    unfold remainderTerm
    rw [if_pos hn]
  have hterm_rem : remainderTerm (unitaryPrices (l1 ++ r :: l2))
      (fun cat => if cat = r.category
        then categoryCounts selections items cat
          - q * Int.fdiv (categoryCounts selections items r.category) q
        else categoryCounts selections items cat) r.category
      = unitaryPrices (l1 ++ r :: l2) r.category
        * ((categoryCounts selections items r.category
            - q * Int.fdiv (categoryCounts selections items r.category) q : ℤ) : ℚ) := by
    rcases lt_or_eq_of_le hρ0 with hlt | heq
    · simp [remainderTerm, hlt]
    · simp [remainderTerm, ← heq]
  rw [hterm_counts, hterm_rem] at hdiff
  have hsv2 : comboSavings (unitaryPrices (l1 ++ r :: l2)) r
      = unitaryPrices (l1 ++ r :: l2) r.category * (q : ℚ) - r.price :=
    comboSavings_qc _ r q hrt hrq hq0
  have hsvpos : 0 < unitaryPrices (l1 ++ r :: l2) r.category * (q : ℚ) - r.price := by
    rw [← hsv2]
    exact hs
  have hcast : ((categoryCounts selections items r.category : ℤ) : ℚ)
      = (q : ℚ) * ((Int.fdiv (categoryCounts selections items r.category) q : ℤ) : ℚ)
        + ((categoryCounts selections items r.category
            - q * Int.fdiv (categoryCounts selections items r.category) q : ℤ) : ℚ) := by
    push_cast
    ring
  have ht1 : (1 : ℚ) ≤ ((Int.fdiv (categoryCounts selections items r.category) q : ℤ) : ℚ) := by
    exact_mod_cast happ
  have e2 : unitaryPrices (l1 ++ r :: l2) r.category
        * ((categoryCounts selections items r.category
            - q * Int.fdiv (categoryCounts selections items r.category) q : ℤ) : ℚ)
      - unitaryPrices (l1 ++ r :: l2) r.category
        * ((categoryCounts selections items r.category : ℤ) : ℚ)
      = -(unitaryPrices (l1 ++ r :: l2) r.category * (q : ℚ)
          * ((Int.fdiv (categoryCounts selections items r.category) q : ℤ) : ℚ)) := by
    rw [hcast]
    ring
  rw [e2] at hdiff
  have e3 : r.price * ((Int.fdiv (categoryCounts selections items r.category) q : ℤ) : ℚ)
      ≤ unitaryPrices (l1 ++ r :: l2) r.category * (q : ℚ)
        * ((Int.fdiv (categoryCounts selections items r.category) q : ℤ) : ℚ) := by
    nlinarith [hsvpos, ht1]
  linarith [hdiff, e3]

/-- C3 (amended witness): with unit rule FIT 10 and the 10-for-95 combo as
the only combo, on 10 selected FIT units the total with the combo (95) is at
most the total without it (100). -/
theorem c3_amended_witness :
    (calculateBestPrice [("a", 10)] [exItemA] ([exUnitFit] ++ exComboX :: [])).total ≤
      (calculateBestPrice [("a", 10)] [exItemA] ([exUnitFit] ++ [])).total :=
  c3_amended [("a", 10)] [exItemA] [exUnitFit] [] exComboX 10
    (by decide) rfl rfl (by decide)
    (by
      rw [comboSavings_qc _ _ 10 rfl rfl (by decide)]
      simp [unitaryPrices, exUnitFit, exComboX, List.filter_cons]
      try norm_num)
    (by decide)

end Claims

end MenuPricing
